import Mathlib

/-!
Verification of the contact-book script `core_08_homework.py`.

The Python source is shallowly embedded: Python strings are Lean `String`
(character-for-character; `str.isdigit` and the `\d` of `re` are modelled as
ASCII decimal digits), the stdlib `datetime` date arithmetic is embedded by
its documented proleptic-Gregorian semantics (`toordinal`, `weekday`,
`replace`, `timedelta` addition, `strftime`/`strptime` with the fixed format
`"%d.%m.%Y"`), exceptions become `Except`/paired `Option Err` results, and
in-place mutation of records and of the `UserDict`-backed address book
becomes explicit state passing over immutable structures.  The address book
is a `List (String × Record)` in insertion order, matching the iteration
order of a Python `dict`.
-/

namespace ContactBook

/-- The exception kinds raised by the script (and the builtin ones its
`input_error` decorator catches). -/
inductive Err where
  | phoneValidation
  | dateValidation
  | missingPhone
  | valueError
  | keyError
  | attributeError
deriving DecidableEq, Repr

/-! ## Dates: embedding of `datetime` (proleptic Gregorian calendar) -/

/-- Leap-year test, as in `datetime`: divisible by 4 and not by 100, or
divisible by 400. -/
def isLeap (y : Nat) : Bool :=
  (y % 4 == 0 && y % 100 != 0) || y % 400 == 0

/-- Number of days in a month of a given year (`datetime`'s table). -/
def daysInMonth (y m : Nat) : Nat :=
  if m == 2 then (if isLeap y then 29 else 28)
  else if m == 4 || m == 6 || m == 9 || m == 11 then 30
  else 31

/-- A calendar date.  `dateValid` below captures which values `datetime.date`
actually admits. -/
structure Date where
  year : Nat
  month : Nat
  day : Nat
deriving DecidableEq, Repr

/-- The values `datetime` accepts: year in `MINYEAR..MAXYEAR = 1..9999`,
month `1..12`, day `1..daysInMonth`. -/
def dateValid (d : Date) : Bool :=
  1 ≤ d.year && d.year ≤ 9999 && 1 ≤ d.month && d.month ≤ 12 &&
  1 ≤ d.day && d.day ≤ daysInMonth d.year d.month

/-- A well-formed calendar date, without `datetime`'s year-9999 cap (used
for the day-arithmetic lemmas, which hold proleptically for any year). -/
def DateOk (d : Date) : Prop :=
  1 ≤ d.year ∧ 1 ≤ d.month ∧ d.month ≤ 12 ∧ 1 ≤ d.day ∧
  d.day ≤ daysInMonth d.year d.month

/-- Days in all years strictly before year `y` (`datetime._days_before_year`). -/
def daysBeforeYear (y : Nat) : Nat :=
  365 * (y - 1) + (y - 1) / 4 - (y - 1) / 100 + (y - 1) / 400

/-- `datetime`'s `_DAYS_BEFORE_MONTH` table (for a non-leap year). -/
def daysBeforeMonthTable : Nat → Nat
  | 1 => 0
  | 2 => 31
  | 3 => 59
  | 4 => 90
  | 5 => 120
  | 6 => 151
  | 7 => 181
  | 8 => 212
  | 9 => 243
  | 10 => 273
  | 11 => 304
  | 12 => 334
  | _ => 0

/-- Days in year `y` strictly before month `m`
(`datetime._days_before_month`): the table plus one for leap Februarys. -/
def daysBeforeMonth (y m : Nat) : Nat :=
  daysBeforeMonthTable m + (if 2 < m && isLeap y then 1 else 0)

/-- `date.toordinal()`: day number counted from 0001-01-01 = ordinal 1. -/
def toordinal (d : Date) : Nat :=
  daysBeforeYear d.year + daysBeforeMonth d.year d.month + d.day

/-- `date.weekday()`: Monday = 0 … Sunday = 6.  0001-01-01 (ordinal 1) is a
Monday. -/
def weekday (d : Date) : Nat :=
  (toordinal d + 6) % 7

/-- The calendar successor of a date (used to embed `+ timedelta(days=n)`). -/
def nextDay (d : Date) : Date :=
  if d.day < daysInMonth d.year d.month then ⟨d.year, d.month, d.day + 1⟩
  else if d.month < 12 then ⟨d.year, d.month + 1, 1⟩
  else ⟨d.year + 1, 1, 1⟩

/-- `date + timedelta(days=n)` for `n ≥ 0`. -/
def addDays (d : Date) (n : Nat) : Date :=
  match n with
  | 0 => d
  | n + 1 => addDays (nextDay d) n

/-- Left-pad a numeral string with zeros to the given width. -/
def padZeros (w : Nat) (n : Nat) : String :=
  let s := toString n
  String.mk (List.replicate (w - s.length) '0') ++ s

/-- `AddressBook.date_to_string`: `date.strftime("%d.%m.%Y")`. -/
def date_to_string (d : Date) : String :=
  padZeros 2 d.day ++ "." ++ padZeros 2 d.month ++ "." ++ padZeros 4 d.year

/-! ## `strptime(value, "%d.%m.%Y")`

CPython's `_strptime` matches the regex
`(3[01]|[12]\d|0[1-9]|[1-9])\.(1[0-2]|0[1-9]|[1-9])\.(\d\d\d\d)` against the
whole string (day and month may be 1 or 2 digits, year exactly 4 digits) and
then builds the `datetime`, which rejects out-of-range dates such as
February 31 or February 29 of a non-leap year. -/

/-- Split a character list on `'.'` (the separators of the fixed format). -/
def splitDots : List Char → List (List Char)
  | [] => [[]]
  | c :: cs =>
    if c = '.' then [] :: splitDots cs
    else
      match splitDots cs with
      | [] => [[c]]
      | h :: t => (c :: h) :: t

/-- Numeric value of a digit string (most significant first). -/
def digitsVal (l : List Char) : Nat :=
  l.foldl (fun a c => 10 * a + (c.toNat - 48)) 0

/-- The `%d` field of the regex: 1–2 digits, value 1..31. -/
def dayField (l : List Char) : Bool :=
  l.all Char.isDigit && (l.length == 1 || l.length == 2) &&
  1 ≤ digitsVal l && digitsVal l ≤ 31

/-- The `%m` field of the regex: 1–2 digits, value 1..12. -/
def monthField (l : List Char) : Bool :=
  l.all Char.isDigit && (l.length == 1 || l.length == 2) &&
  1 ≤ digitsVal l && digitsVal l ≤ 12

/-- The `%Y` field of the regex: exactly 4 digits. -/
def yearField (l : List Char) : Bool :=
  l.all Char.isDigit && l.length == 4

/-- `datetime.strptime(s, "%d.%m.%Y")`: `none` models the `ValueError`. -/
def strptimeDMY (s : String) : Option Date :=
  match splitDots s.data with
  | [ds, ms, ys] =>
    if dayField ds && monthField ms && yearField ys then
      let d : Date := ⟨digitsVal ys, digitsVal ms, digitsVal ds⟩
      if dateValid d then some d else none
    else none
  | _ => none

/-! ## Validated value types -/

/-- `Birthday.__init__`: parse with `strptime("%d.%m.%Y")`; on failure raise
`DateValidationError`; on success store the original string. -/
def mkBirthday (value : String) : Except Err String :=
  match strptimeDMY value with
  | some _ => .ok value
  | none => .error .dateValidation

/-- `Phone.__init__`: require length 10 and `isdigit()`; on failure raise
`PhoneValidationError`; on success store the string. -/
def mkPhone (value : String) : Except Err String :=
  if value.data.length ≠ 10 then .error .phoneValidation
  else if ¬ value.data.all Char.isDigit then .error .phoneValidation
  else .ok value

/-! ## Records

A `Record` owns a name, an ordered phone list, and an optional birthday.
Python mutates records in place; here each mutator returns the new record
paired with `Option Err` (`some e` embeds a raised exception, in which case
the returned record is the state at the moment of the raise). -/

structure Record where
  name : String
  phones : List String
  birthday : Option String
deriving DecidableEq, Repr

/-- `Record.__init__`: a name, an empty phone list, no birthday. -/
def Record.make (name : String) : Record :=
  ⟨name, [], none⟩

/-- `Record.find_phone`: linear scan by string equality. -/
def Record.find_phone (r : Record) (phone : String) : Option String :=
  r.phones.find? (fun ph => phone == ph)

/-- `Record.add_phone`: validate via `Phone(...)`; append unless the value is
already present. -/
def Record.add_phone (r : Record) (phone : String) : Record × Option Err :=
  match mkPhone phone with
  | .error e => (r, some e)
  | .ok v => if v ∈ r.phones then (r, none)
             else ({ r with phones := r.phones ++ [v] }, none)

/-- `Record.remove_phone`: keep the phones whose value differs. -/
def Record.remove_phone (r : Record) (phone : String) : Record :=
  { r with phones := r.phones.filter (fun ph => ph ≠ phone) }

/-- `Record.edit_phone`: if `old_phone` is present, `add_phone new_phone`
(whose validation error propagates) then `remove_phone old_phone`; otherwise
raise `MissingPhoneError`. -/
def Record.edit_phone (r : Record) (old_phone new_phone : String) :
    Record × Option Err :=
  match r.find_phone old_phone with
  | some _ =>
    match r.add_phone new_phone with
    | (r1, some e) => (r1, some e)
    | (r1, none) => (r1.remove_phone old_phone, none)
  | none => (r, some .missingPhone)

/-- `Record.add_birthday`: construct a `Birthday` (validation error
propagates) and overwrite the field. -/
def Record.add_birthday (r : Record) (birthday : String) : Record × Option Err :=
  match mkBirthday birthday with
  | .error e => (r, some e)
  | .ok v => ({ r with birthday := some v }, none)

/-! ## AddressBook

`AddressBook(UserDict)` is embedded as an association list in insertion
order, the iteration order of a Python `dict`.  Assigning to an existing key
replaces the value in place; assigning a fresh key appends. -/

abbrev Book := List (String × Record)

/-- `self.data[k] = r`: replace in place if the key exists, else append. -/
def bookSet (book : Book) (k : String) (r : Record) : Book :=
  if (List.any book (fun e => e.1 == k)) then
    List.map (fun e => if e.1 == k then (k, r) else e) book
  else book ++ [(k, r)]

/-- `AddressBook.add_record`: `self.data[record.name.value] = record`. -/
def add_record (book : Book) (r : Record) : Book :=
  bookSet book r.name r

/-- `AddressBook.find`: key lookup returning `None` on a miss. -/
def find (book : Book) (name : String) : Option Record :=
  (List.find? (fun e => e.1 == name) book).map (fun e => e.2)

/-- `AddressBook.delete`: pop the key if present. -/
def delete (book : Book) (name : String) : Book :=
  List.filter (fun e => e.1 ≠ name) book

/-- `AddressBook.find_next_weekday`: `days_ahead = weekday - start.weekday()`,
bump by 7 when non-positive, add as a timedelta. -/
def find_next_weekday (start_date : Date) (wd : Nat) : Date :=
  let days_ahead : Int := (wd : Int) - (weekday start_date : Int)
  let days_ahead := if days_ahead ≤ 0 then days_ahead + 7 else days_ahead
  addDays start_date days_ahead.toNat

/-- `AddressBook.adjust_for_weekend`: shift Saturday/Sunday to the next
Monday (weekday 0). -/
def adjust_for_weekend (birthday : Date) : Date :=
  if weekday birthday ≥ 5 then find_next_weekday birthday 0 else birthday

/-- One output item of `get_upcoming_birthdays`. -/
structure UpEntry where
  name : String
  congratulation_date : String
deriving DecidableEq, Repr

/-- The tail of the `get_upcoming_birthdays` loop body for one occurrence
`bty`: test the 0..7-day window and, on inclusion, format the
weekend-adjusted date.  A `timedelta` addition whose result leaves
`datetime`'s year range raises `OverflowError`, modelled by `.error ()`. -/
def upcomingWindow (today : Date) (nm : String) (bty : Date) :
    Except Unit (Option UpEntry) :=
  if 0 ≤ (toordinal bty : Int) - (toordinal today : Int) ∧
     (toordinal bty : Int) - (toordinal today : Int) ≤ 7 then
    if dateValid (adjust_for_weekend bty) = true then
      .ok (some ⟨nm, date_to_string (adjust_for_weekend bty)⟩)
    else .error ()
  else .ok none

/-- Continuation of `upcomingItem`: the parsed birthday moved into the
current or following year (`date.replace(year=…)`, whose `ValueError` on a
nonexistent date such as Feb 29 of a non-leap year is `.error`), then the
window test via `upcomingWindow`. -/
def upcomingItem (today : Date) (nm : String) (bstr : String) :
    Except Unit (Option UpEntry) :=
  match strptimeDMY bstr with
  | none => .error ()
  | some birthday =>
    if dateValid ⟨today.year, birthday.month, birthday.day⟩ = true then
      if toordinal ⟨today.year, birthday.month, birthday.day⟩ < toordinal today then
        if dateValid ⟨today.year + 1, birthday.month, birthday.day⟩ = true then
          upcomingWindow today nm ⟨today.year + 1, birthday.month, birthday.day⟩
        else .error ()
      else upcomingWindow today nm ⟨today.year, birthday.month, birthday.day⟩
    else .error ()

/-- `AddressBook.get_upcoming_birthdays`, with `datetime.today()` passed in
explicitly (only its calendar date is ever used). -/
def get_upcoming_birthdays (book : Book) (today : Date) :
    Except Unit (List UpEntry) :=
  match book with
  | [] => .ok []
  | (nm, r) :: rest =>
    match r.birthday with
    | none => get_upcoming_birthdays rest today
    | some b =>
      match upcomingItem today nm b with
      | .error e => .error e
      | .ok none => get_upcoming_birthdays rest today
      | .ok (some e) =>
        match get_upcoming_birthdays rest today with
        | .error er => .error er
        | .ok l => .ok (e :: l)

/-! ## Command handlers

Each handler takes the parsed argument list and the book; too few arguments
raise `ValueError` at the unpacking (caught by `input_error`), and record
mutations run on the looked-up record with the book updated accordingly. -/

/-- `add_contact`: add the phone to the existing record when the name is
found, otherwise create a record, add the phone, and insert it. -/
def add_contact (args : List String) (book : Book) : Book × Option Err :=
  match args with
  | name :: phone :: _ =>
    match find book name with
    | some r =>
      match r.add_phone phone with
      | (r1, e) => (bookSet book name r1, e)
    | none =>
      match (Record.make name).add_phone phone with
      | (_, some e) => (book, some e)
      | (r1, none) => (add_record book r1, none)
  | _ => (book, some .valueError)

/-- `change_contact`: `book.find(name).edit_phone(old, new)`; a miss makes
the `None` receiver raise `AttributeError`. -/
def change_contact (args : List String) (book : Book) : Book × Option Err :=
  match args with
  | name :: old_phone :: new_phone :: _ =>
    match find book name with
    | none => (book, some .attributeError)
    | some r =>
      match r.edit_phone old_phone new_phone with
      | (r1, e) => (bookSet book name r1, e)
  | _ => (book, some .valueError)

/-- The `add_birthday` handler: `book.data[name].add_birthday(birthday)`;
a missing key raises `KeyError`. -/
def add_birthday_cmd (args : List String) (book : Book) : Book × Option Err :=
  match args with
  | name :: birthday :: _ =>
    match find book name with
    | none => (book, some .keyError)
    | some r =>
      match r.add_birthday birthday with
      | (r1, e) => (bookSet book name r1, e)
  | _ => (book, some .valueError)

/-! ## Persistence: `save_data` / `load_data`

`save_data` writes `pickle.dump(book, f)` and `load_data` reads it back,
returning a fresh `AddressBook()` on `FileNotFoundError`.  The stdlib
`pickle` module serializes the object graph structurally; its documented
contract on this graph (plain attribute-carrying objects, lists, strings,
`None`) is that unpickling reconstructs an equivalent object.  It is
embedded here as a structural object-graph value `PVal`: pickling maps the
book onto the graph, unpickling decodes it and can fail on a malformed
graph. -/

inductive PVal where
  | pstr : String → PVal
  | pnone : PVal
  | plist : List PVal → PVal

/-- The pickled form of a `Record`: its name, phone list, and optional
birthday. -/
def pickleRecord (r : Record) : PVal :=
  .plist [.pstr r.name, .plist (List.map PVal.pstr r.phones),
          match r.birthday with | none => .pnone | some b => .pstr b]

/-- The pickled form of the whole book: its entries in order. -/
def pickleBook (book : Book) : PVal :=
  .plist (List.map (fun e => PVal.plist [PVal.pstr e.1, pickleRecord e.2]) book)

/-- Decode a list of pickled strings. -/
def unpickleStrs : List PVal → Option (List String)
  | [] => some []
  | .pstr s :: t => (unpickleStrs t).map (fun l => s :: l)
  | _ => none

/-- Decode one pickled `Record`. -/
def unpickleRecord : PVal → Option Record
  | .plist [.pstr nm, .plist phs, bd] =>
    match unpickleStrs phs, bd with
    | some ps, .pnone => some ⟨nm, ps, none⟩
    | some ps, .pstr b => some ⟨nm, ps, some b⟩
    | _, _ => none
  | _ => none

/-- Decode the pickled entry list. -/
def unpickleEntries : List PVal → Option Book
  | [] => some []
  | .plist [.pstr k, rv] :: t =>
    match unpickleRecord rv, unpickleEntries t with
    | some r, some b => some ((k, r) :: b)
    | _, _ => none
  | _ => none

/-- Decode a pickled book. -/
def unpickleBook : PVal → Option Book
  | .plist es => unpickleEntries es
  | _ => none

/-- `save_data`: pickle the whole book to the file. -/
def save_data (book : Book) : PVal :=
  pickleBook book

/-- `load_data`: unpickle the file, or return an empty `AddressBook()` when
the file does not exist (`none`). -/
def load_data (file : Option PVal) : Option Book :=
  match file with
  | none => some []
  | some v => unpickleBook v

/-! ## Spec-side definitions

These follow the wording of the specification and of the claims, for
comparison against the embedded code. -/

/-- SpecSide: the claims' "zero-padded DD.MM.YYYY denoting a real calendar
date" format — exactly 2-digit day, 2-digit month, 4-digit year separated by
dots, forming a valid date. -/
def strictDMY (s : String) : Bool :=
  match s.data with
  | [d1, d2, c1, m1, m2, c2, y1, y2, y3, y4] =>
    c1 == '.' && c2 == '.' &&
    List.all [d1, d2, m1, m2, y1, y2, y3, y4] Char.isDigit &&
    dateValid ⟨digitsVal [y1, y2, y3, y4], digitsVal [m1, m2],
               digitsVal [d1, d2]⟩
  | _ => false

/-- SpecSide: steps 1–2 of the spec's `get_upcoming_birthdays` description:
parse the stored birthday, combine its day/month with the current year to
get this year's occurrence, and use next year's occurrence when this year's
is strictly before today by calendar date; `none` when the string does not
parse or the occurrence does not exist as a calendar date. -/
def specNextOccurrence (today : Date) (bstr : String) : Option Date :=
  match strptimeDMY bstr with
  | none => none
  | some bd =>
    if dateValid ⟨today.year, bd.month, bd.day⟩ then
      if toordinal ⟨today.year, bd.month, bd.day⟩ < toordinal today then
        if dateValid ⟨today.year + 1, bd.month, bd.day⟩ then
          some ⟨today.year + 1, bd.month, bd.day⟩
        else none
      else some ⟨today.year, bd.month, bd.day⟩
    else none

/-- SpecSide: step 3, the inclusive window [today, today + 7 days]. -/
def inWindow (today occ : Date) : Bool :=
  toordinal today ≤ toordinal occ && toordinal occ ≤ toordinal today + 7

/-- SpecSide: whether a directory entry qualifies for the upcoming-birthday
report. -/
def qualifies (today : Date) (e : String × Record) : Bool :=
  match e.2.birthday with
  | none => false
  | some b =>
    match specNextOccurrence today b with
    | none => false
    | some occ => inWindow today occ

/-- The Directory invariant: every key equals the name of its record. -/
def Inv (book : Book) : Bool :=
  List.all book (fun e => e.2.name == e.1)

/-! ## Theorems -/

/-- Claim C2: Phone construction succeeds with the stored value equal to the
input for every string of exactly 10 decimal-digit characters, and fails
with `PhoneValidationError` for every other string. -/
theorem phone_validation_exact (s : String) :
    mkPhone s = (if s.data.length = 10 ∧ s.data.all Char.isDigit = true
                 then .ok s else .error Err.phoneValidation) := by
  unfold mkPhone
  by_cases h1 : s.data.length = 10 <;>
    by_cases h2 : s.data.all Char.isDigit = true <;>
      simp [h1, h2]

/-- Claim C6: `edit_phone` on a record holding no phone equal to the old
value fails with `MissingPhoneError`, the returned state being the record
itself, completely unmodified. -/
theorem edit_phone_missing_unmodified (r : Record) (old_phone new_phone : String)
    (h : r.find_phone old_phone = none) :
    r.edit_phone old_phone new_phone = (r, some Err.missingPhone) := by
  unfold Record.edit_phone
  rw [h]

/-- Witness for C6 at a concrete record. -/
theorem edit_phone_missing_unmodified_witness :
    (⟨"Alice", ["0123456789"], none⟩ : Record).edit_phone "9999999999" "0000000000"
      = (⟨"Alice", ["0123456789"], none⟩, some Err.missingPhone) :=
  edit_phone_missing_unmodified ⟨"Alice", ["0123456789"], none⟩ "9999999999"
    "0000000000" (by decide)

/-- Claim C7: for a record whose phone list has no duplicates, adding the
same valid phone twice succeeds, the second insert is a silent no-op, and
exactly one entry with that value remains; name and birthday are
untouched. -/
theorem add_phone_idempotent (r : Record) (p : String)
    (hnd : r.phones.Nodup) (hv : mkPhone p = .ok p) :
    ∃ r1, r.add_phone p = (r1, none) ∧ r1.add_phone p = (r1, none) ∧
      r1.phones.count p = 1 ∧ r1.phones.Nodup ∧
      r1.name = r.name ∧ r1.birthday = r.birthday := by
  by_cases hp : p ∈ r.phones
  · refine ⟨r, ?_, ?_, List.count_eq_one_of_mem hnd hp, hnd, rfl, rfl⟩ <;>
      simp [Record.add_phone, hv, hp]
  · refine ⟨{ r with phones := r.phones ++ [p] }, ?_, ?_, ?_, ?_, rfl, rfl⟩
    · simp [Record.add_phone, hv, hp]
    · simp [Record.add_phone, hv]
    · simp [List.count_append, List.count_eq_zero_of_not_mem hp]
    · simp [List.nodup_append, hnd, hp]

/-- Witness for C7 at a concrete record and phone. -/
theorem add_phone_idempotent_witness :
    ∃ r1, (Record.make "Bob").add_phone "0123456789" = (r1, none) ∧
      r1.add_phone "0123456789" = (r1, none) ∧
      r1.phones.count "0123456789" = 1 ∧ r1.phones.Nodup ∧
      r1.name = (Record.make "Bob").name ∧
      r1.birthday = (Record.make "Bob").birthday :=
  add_phone_idempotent (Record.make "Bob") "0123456789" (by decide) (by rfl)

/-- Claim C5: `get_upcoming_birthdays` is not total: a stored birthday that
parses to February 29 (necessarily of a leap year) makes the call raise
`ValueError` whenever today's year is not a leap year, because
`date.replace(year=today.year)` rejects February 29 there. -/
theorem upcoming_birthdays_feb29_raises (nm bstr : String) (phones : List String)
    (today : Date) (y : Nat)
    (hp : strptimeDMY bstr = some ⟨y, 2, 29⟩)
    (hl : isLeap today.year = false) :
    get_upcoming_birthdays [(nm, ⟨nm, phones, some bstr⟩)] today = .error () := by
  have hv : dateValid ⟨today.year, 2, 29⟩ = false := by
    simp [dateValid, daysInMonth, hl]
  simp [get_upcoming_birthdays, upcomingItem, hp, hv]

/-- Witness for C5: a contact born 29.02.2024, queried in 2023. -/
theorem upcoming_birthdays_feb29_raises_witness :
    get_upcoming_birthdays [("Dan", ⟨"Dan", [], some "29.02.2024"⟩)] ⟨2023, 6, 10⟩
      = .error () :=
  upcoming_birthdays_feb29_raises "Dan" "29.02.2024" [] ⟨2023, 6, 10⟩ 2024
    (by decide) (by decide)

/-- Decoding inverts encoding on a list of pickled strings. -/
theorem unpickleStrs_pickle (l : List String) :
    unpickleStrs (List.map PVal.pstr l) = some l := by
  induction l with
  | nil => rfl
  | cons h t ih => simp [unpickleStrs, ih]

/-- Decoding inverts encoding on one pickled record. -/
theorem unpickleRecord_pickle (r : Record) :
    unpickleRecord (pickleRecord r) = some r := by
  obtain ⟨nm, phs, bd⟩ := r
  cases bd <;> simp [pickleRecord, unpickleRecord, unpickleStrs_pickle]

/-- Claim C10: persistence round-trips exactly: loading after saving any
book reproduces it, entry for entry — identical names, phone sequences and
birthdays. -/
theorem persistence_roundtrip (book : Book) :
    load_data (some (save_data book)) = some book := by
  show unpickleBook (pickleBook book) = some book
  unfold pickleBook unpickleBook
  induction book with
  | nil => rfl
  | cons e t ih =>
    simp only [List.map_cons, unpickleEntries, unpickleRecord_pickle]
    simp only [List.map] at ih
    rw [ih]

/-- `Phone` validation returns the input string on success. -/
theorem mkPhone_ok (p v : String) (h : mkPhone p = .ok v) : v = p := by
  unfold mkPhone at h
  split at h
  · cases h
  · split at h
    · cases h
    · cases h; rfl

/-- A successful lookup means some entry carries the key. -/
theorem find_mem_any (book : Book) (name : String) (r : Record)
    (h : find book name = some r) :
    List.any book (fun e => e.1 == name) = true := by
  unfold find at h
  rcases Option.map_eq_some'.mp h with ⟨e, hfind, _⟩
  have hp := List.find?_some hfind
  exact List.any_eq_true.mpr ⟨e, List.mem_of_find?_eq_some hfind, hp⟩

/-- Writing at an existing key leaves the key sequence unchanged. -/
theorem map_fst_bookSet (book : Book) (k : String) (r : Record)
    (h : List.any book (fun e => e.1 == k) = true) :
    List.map Prod.fst (bookSet book k r) = List.map Prod.fst book := by
  unfold bookSet
  rw [h]
  simp only [if_true, List.map_map]
  apply List.map_congr_left
  intro e _
  by_cases he : e.1 = k <;> simp [he]

/-- Looking up the key just written finds the record just written. -/
theorem find_map_replace (book : Book) (k : String) (r : Record)
    (h : List.any book (fun e => e.1 == k) = true) :
    List.find? (fun e => e.1 == k)
      (List.map (fun e => if e.1 == k then (k, r) else e) book) = some (k, r) := by
  induction book with
  | nil => cases h
  | cons e t ih =>
    by_cases he : (e.1 == k) = true
    · simp [List.find?, he]
    · have he' : (e.1 == k) = false := by simpa using he
      simp only [List.any_cons, he', Bool.false_or] at h
      simp only [List.map_cons, he', Bool.false_eq_true, if_false, List.find?, he']
      exact ih h

/-- `find` after `bookSet` at an existing key. -/
theorem find_bookSet_self (book : Book) (k : String) (r : Record)
    (h : List.any book (fun e => e.1 == k) = true) :
    find (bookSet book k r) k = some r := by
  unfold bookSet
  rw [h]
  simp only [if_true]
  unfold find
  rw [find_map_replace book k r h]
  rfl

/-- Claim C8: the add-command handler on a name already present updates the
existing record in place: the key sequence of the directory is unchanged,
and the record keeps its name, its birthday, and all its phones (gaining at
most the new one). -/
theorem add_contact_existing_updates (name phone : String) (rest : List String)
    (book : Book) (r : Record) (hf : find book name = some r) :
    ∃ r1 e, add_contact (name :: phone :: rest) book = (bookSet book name r1, e) ∧
      List.map Prod.fst (bookSet book name r1) = List.map Prod.fst book ∧
      find (bookSet book name r1) name = some r1 ∧
      r1.name = r.name ∧ r1.birthday = r.birthday ∧
      (r1.phones = r.phones ∨ r1.phones = r.phones ++ [phone]) := by
  have hany := find_mem_any book name r hf
  rcases hmk : mkPhone phone with e | v
  · refine Exists.intro r (Exists.intro (some e) ?_)
    refine ⟨?_, map_fst_bookSet book name r hany,
      find_bookSet_self book name r hany, rfl, rfl, Or.inl rfl⟩
    simp [add_contact, hf, Record.add_phone, hmk]
  · cases mkPhone_ok phone v hmk
    by_cases hp : phone ∈ r.phones
    · refine Exists.intro r (Exists.intro none ?_)
      refine ⟨?_, map_fst_bookSet book name r hany,
        find_bookSet_self book name r hany, rfl, rfl, Or.inl rfl⟩
      simp [add_contact, hf, Record.add_phone, hmk, hp]
    · refine Exists.intro { r with phones := r.phones ++ [phone] }
        (Exists.intro none ?_)
      refine ⟨?_, map_fst_bookSet book name _ hany,
        find_bookSet_self book name _ hany, rfl, rfl, Or.inr rfl⟩
      simp [add_contact, hf, Record.add_phone, hmk, hp]

/-- Witness for C8 at a concrete directory. -/
theorem add_contact_existing_updates_witness :
    ∃ r1 e,
      add_contact ["Ann", "1112223334"]
          [("Ann", ⟨"Ann", ["0123456789"], some "10.06.1990"⟩)]
        = (bookSet [("Ann", ⟨"Ann", ["0123456789"], some "10.06.1990"⟩)] "Ann" r1, e) ∧
      List.map Prod.fst
          (bookSet [("Ann", ⟨"Ann", ["0123456789"], some "10.06.1990"⟩)] "Ann" r1)
        = List.map Prod.fst
            ([("Ann", ⟨"Ann", ["0123456789"], some "10.06.1990"⟩)] : Book) ∧
      find (bookSet [("Ann", ⟨"Ann", ["0123456789"], some "10.06.1990"⟩)] "Ann" r1) "Ann"
        = some r1 ∧
      r1.name = "Ann" ∧ r1.birthday = some "10.06.1990" ∧
      (r1.phones = ["0123456789"] ∨ r1.phones = ["0123456789"] ++ ["1112223334"]) :=
  add_contact_existing_updates "Ann" "1112223334" []
    [("Ann", ⟨"Ann", ["0123456789"], some "10.06.1990"⟩)]
    ⟨"Ann", ["0123456789"], some "10.06.1990"⟩ (by rfl)

/-- `add_phone` never changes the record's name. -/
theorem add_phone_fst_name (r : Record) (p : String) :
    (r.add_phone p).1.name = r.name := by
  unfold Record.add_phone
  rcases mkPhone p with e | v
  · rfl
  · by_cases hv : v ∈ r.phones <;> simp [hv]

/-- `edit_phone` never changes the record's name. -/
theorem edit_phone_fst_name (r : Record) (o n : String) :
    (r.edit_phone o n).1.name = r.name := by
  unfold Record.edit_phone
  rcases r.find_phone o with _ | ph
  · rfl
  · have h := add_phone_fst_name r n
    rcases hap : r.add_phone n with ⟨r1, e⟩
    rw [hap] at h
    cases e
    · simpa [Record.remove_phone] using h
    · simpa using h

/-- `add_birthday` never changes the record's name. -/
theorem add_birthday_fst_name (r : Record) (b : String) :
    (r.add_birthday b).1.name = r.name := by
  unfold Record.add_birthday
  rcases mkBirthday b with e | v <;> rfl

/-- Entries of an invariant-satisfying book have matching key and name. -/
theorem inv_find_name (book : Book) (name : String) (r : Record)
    (h : Inv book = true) (hf : find book name = some r) : r.name = name := by
  unfold find at hf
  rcases Option.map_eq_some'.mp hf with ⟨e, hfind, he⟩
  have h1 : e.2.name = e.1 := by
    have := List.all_eq_true.mp h e (List.mem_of_find?_eq_some hfind)
    exact beq_iff_eq.mp (by simpa using this)
  have hp := List.find?_some hfind
  have h2 : e.1 = name := beq_iff_eq.mp hp
  rw [← he, h1, h2]

/-- `bookSet` with a record named after its key preserves the invariant. -/
theorem inv_bookSet (book : Book) (k : String) (r : Record)
    (h : Inv book = true) (hn : r.name = k) : Inv (bookSet book k r) = true := by
  unfold bookSet
  by_cases ha : List.any book (fun e => e.1 == k) = true
  · rw [ha]
    simp only [if_true, Inv, List.all_map]
    apply List.all_eq_true.mpr
    intro e he
    by_cases hek : e.1 == k
    · simp [Function.comp, hek, hn]
    · simpa [Function.comp, hek] using List.all_eq_true.mp h e he
  · rw [Bool.not_eq_true] at ha
    rw [ha]
    simp only [Bool.false_eq_true, if_false, Inv, List.all_append]
    unfold Inv at h
    simp [h, hn]

/-- Claim C9: every directory operation — `add_record`, `delete`, and the
record mutations reachable through the `add`, `change` and `add-birthday`
handlers — preserves the invariant that each key equals the name of the
record it maps to. -/
theorem directory_key_name_invariant (book : Book) (r : Record) (n : String)
    (args : List String) (h : Inv book = true) :
    Inv (add_record book r) = true ∧
    Inv (delete book n) = true ∧
    (∀ b e, add_contact args book = (b, e) → Inv b = true) ∧
    (∀ b e, change_contact args book = (b, e) → Inv b = true) ∧
    (∀ b e, add_birthday_cmd args book = (b, e) → Inv b = true) := by
  refine ⟨inv_bookSet book r.name r h rfl, ?_, ?_, ?_, ?_⟩
  · apply List.all_eq_true.mpr
    intro e he
    exact List.all_eq_true.mp h e (List.mem_of_mem_filter he)
  · intro b e heq
    rcases args with _ | ⟨name, _ | ⟨phone, rest⟩⟩
    · cases heq; exact h
    · cases heq; exact h
    · cases hf : find book name with
      | some r0 =>
        rcases hap : r0.add_phone phone with ⟨r1, e1⟩
        simp only [add_contact, hf, hap] at heq
        cases heq
        have hname : r1.name = name := by
          have := add_phone_fst_name r0 phone
          rw [hap] at this
          simpa [inv_find_name book name r0 h hf] using this
        exact inv_bookSet book name r1 h hname
      | none =>
        rcases hap : (Record.make name).add_phone phone with ⟨r1, e1⟩
        simp only [add_contact, hf, hap] at heq
        cases e1
        · cases heq; exact inv_bookSet book r1.name r1 h rfl
        · cases heq; exact h
  · intro b e heq
    rcases args with _ | ⟨name, _ | ⟨old_phone, _ | ⟨new_phone, rest⟩⟩⟩
    · cases heq; exact h
    · cases heq; exact h
    · cases heq; exact h
    · cases hf : find book name with
      | none => simp only [change_contact, hf] at heq; cases heq; exact h
      | some r0 =>
        rcases hep : r0.edit_phone old_phone new_phone with ⟨r1, e1⟩
        simp only [change_contact, hf, hep] at heq
        cases heq
        have hname : r1.name = name := by
          have := edit_phone_fst_name r0 old_phone new_phone
          rw [hep] at this
          simpa [inv_find_name book name r0 h hf] using this
        exact inv_bookSet book name r1 h hname
  · intro b e heq
    rcases args with _ | ⟨name, _ | ⟨birthday, rest⟩⟩
    · cases heq; exact h
    · cases heq; exact h
    · cases hf : find book name with
      | none => simp only [add_birthday_cmd, hf] at heq; cases heq; exact h
      | some r0 =>
        rcases hab : r0.add_birthday birthday with ⟨r1, e1⟩
        simp only [add_birthday_cmd, hf, hab] at heq
        cases heq
        have hname : r1.name = name := by
          have := add_birthday_fst_name r0 birthday
          rw [hab] at this
          simpa [inv_find_name book name r0 h hf] using this
        exact inv_bookSet book name r1 h hname

/-- Witness for C9: the invariant after an `add_record` on a concrete book. -/
theorem directory_key_name_invariant_witness :
    Inv (add_record [] (Record.make "Ada")) = true :=
  (directory_key_name_invariant [] (Record.make "Ada") "X"
    ["Ada", "0123456789"] (by decide)).1

/-! ### Day-arithmetic lemmas for the proleptic Gregorian embedding -/

/-- Every month has at least one day. -/
theorem daysInMonth_pos (y m : Nat) : 1 ≤ daysInMonth y m := by
  unfold daysInMonth
  split
  · split <;> omega
  · split <;> omega

/-- The cumulative-days table steps by the month length. -/
theorem daysBeforeMonth_succ (y m : Nat) (h1 : 1 ≤ m) (h2 : m ≤ 11) :
    daysBeforeMonth y (m + 1) = daysBeforeMonth y m + daysInMonth y m := by
  interval_cases m <;>
    cases hL : isLeap y <;>
      simp [daysBeforeMonth, daysBeforeMonthTable, daysInMonth, hL]

/-- Leap years as a proposition. -/
theorem isLeap_iff (y : Nat) :
    isLeap y = true ↔ ((y % 4 = 0 ∧ y % 100 ≠ 0) ∨ y % 400 = 0) := by
  simp [isLeap, Bool.or_eq_true, Bool.and_eq_true, beq_iff_eq, bne_iff_ne]

/-- The day count before a year steps by that year's length. -/
theorem daysBeforeYear_succ (y : Nat) (hy : 1 ≤ y) :
    daysBeforeYear (y + 1) =
      daysBeforeYear y + (if isLeap y then 366 else 365) := by
  obtain ⟨n, rfl⟩ : ∃ n, y = n + 1 := ⟨y - 1, by omega⟩
  have e4 := Nat.succ_div n 4
  have e100 := Nat.succ_div n 100
  have e400 := Nat.succ_div n 400
  have l1 : n / 100 ≤ n / 4 := Nat.div_le_div_left (by norm_num) (by norm_num)
  have l2 : n / 400 ≤ n / 100 := Nat.div_le_div_left (by norm_num) (by norm_num)
  unfold daysBeforeYear
  simp only [Nat.add_sub_cancel]
  cases hL : isLeap (n + 1) with
  | false =>
    have hP : ¬(((n + 1) % 4 = 0 ∧ (n + 1) % 100 ≠ 0) ∨ (n + 1) % 400 = 0) := by
      rw [← isLeap_iff]
      simp [hL]
    rw [e4, e100, e400]
    simp only [if_false, Bool.false_eq_true]
    by_cases h4 : 4 ∣ n + 1 <;> by_cases h100 : 100 ∣ n + 1 <;>
      by_cases h400 : 400 ∣ n + 1 <;> simp [h4, h100, h400] <;> omega
  | true =>
    have hP : ((n + 1) % 4 = 0 ∧ (n + 1) % 100 ≠ 0) ∨ (n + 1) % 400 = 0 :=
      (isLeap_iff (n + 1)).mp hL
    rw [e4, e100, e400]
    simp only [if_true]
    by_cases h4 : 4 ∣ n + 1 <;> by_cases h100 : 100 ∣ n + 1 <;>
      by_cases h400 : 400 ∣ n + 1 <;> simp [h4, h100, h400] <;> omega

/-- Taking the calendar successor adds one to the ordinal. -/
theorem toordinal_nextDay (d : Date) (h : DateOk d) :
    toordinal (nextDay d) = toordinal d + 1 := by
  obtain ⟨hy, hm1, hm2, hd1, hd2⟩ := h
  unfold nextDay toordinal
  by_cases hlt : d.day < daysInMonth d.year d.month
  · rw [if_pos hlt]
    show daysBeforeYear d.year + daysBeforeMonth d.year d.month + (d.day + 1) = _
    omega
  · rw [if_neg hlt]
    by_cases hm : d.month < 12
    · rw [if_pos hm]
      show daysBeforeYear d.year + daysBeforeMonth d.year (d.month + 1) + 1 = _
      rw [daysBeforeMonth_succ d.year d.month hm1 (by omega)]
      omega
    · rw [if_neg hm]
      have hm12 : d.month = 12 := by omega
      have hdim : daysInMonth d.year 12 = 31 := by simp [daysInMonth]
      have hd31 : d.day = 31 := by
        rw [hm12] at hd2 hlt
        rw [hdim] at hd2 hlt
        omega
      show daysBeforeYear (d.year + 1) + daysBeforeMonth (d.year + 1) 1 + 1 = _
      rw [daysBeforeYear_succ d.year hy, hm12, hd31]
      cases hL : isLeap d.year <;>
        simp [daysBeforeMonth, daysBeforeMonthTable, hL]

/-- The calendar successor of a well-formed date is well formed. -/
theorem dateOk_nextDay (d : Date) (h : DateOk d) : DateOk (nextDay d) := by
  obtain ⟨hy, hm1, hm2, hd1, hd2⟩ := h
  unfold nextDay
  by_cases hlt : d.day < daysInMonth d.year d.month
  · rw [if_pos hlt]
    exact ⟨hy, hm1, hm2, by show 1 ≤ d.day + 1; omega,
      by show d.day + 1 ≤ daysInMonth d.year d.month; omega⟩
  · rw [if_neg hlt]
    by_cases hm : d.month < 12
    · rw [if_pos hm]
      exact ⟨hy, by show 1 ≤ d.month + 1; omega, by show d.month + 1 ≤ 12; omega,
        le_refl 1, daysInMonth_pos d.year (d.month + 1)⟩
    · rw [if_neg hm]
      exact ⟨by show 1 ≤ d.year + 1; omega, le_refl 1, by show (1 : Nat) ≤ 12; omega,
        le_refl 1, daysInMonth_pos (d.year + 1) 1⟩

/-- `timedelta` addition shifts the ordinal by the day count and preserves
well-formedness. -/
theorem toordinal_addDays (d : Date) (n : Nat) (h : DateOk d) :
    toordinal (addDays d n) = toordinal d + n ∧ DateOk (addDays d n) := by
  induction n generalizing d with
  | zero => exact ⟨rfl, h⟩
  | succ n ih =>
    have h1 := dateOk_nextDay d h
    obtain ⟨e1, o1⟩ := ih (nextDay d) h1
    refine ⟨?_, o1⟩
    show toordinal (addDays (nextDay d) n) = _
    rw [e1, toordinal_nextDay d h]
    omega

/-- `timedelta` addition rotates the weekday. -/
theorem weekday_addDays (d : Date) (n : Nat) (h : DateOk d) :
    weekday (addDays d n) = (weekday d + n) % 7 := by
  have e := (toordinal_addDays d n h).1
  unfold weekday
  omega

/-- On a weekend occurrence, `adjust_for_weekend` lands on a Monday strictly
after the occurrence, at most 7 days later. -/
theorem adjust_weekend_next_monday (b : Date) (h : DateOk b)
    (hw : 5 ≤ weekday b) :
    weekday (adjust_for_weekend b) = 0 ∧
    toordinal b < toordinal (adjust_for_weekend b) ∧
    toordinal (adjust_for_weekend b) ≤ toordinal b + 7 := by
  have hwlt : weekday b < 7 := Nat.mod_lt _ (by omega)
  unfold adjust_for_weekend
  rw [if_pos hw]
  simp only [find_next_weekday, Nat.cast_zero, zero_sub]
  rw [if_pos (show -((weekday b : Nat) : Int) ≤ 0 by omega)]
  have htn : (-((weekday b : Nat) : Int) + 7).toNat = 7 - weekday b := by omega
  rw [htn]
  have hord := (toordinal_addDays b (7 - weekday b) h).1
  have hwd := weekday_addDays b (7 - weekday b) h
  refine ⟨?_, by omega, by omega⟩
  rw [hwd]
  omega

/-- `dateValid` implies the well-formedness used by the ordinal lemmas. -/
theorem dateValid_ok (d : Date) (h : dateValid d = true) : DateOk d := by
  unfold dateValid at h
  simp only [Bool.and_eq_true, decide_eq_true_eq] at h
  obtain ⟨⟨⟨⟨⟨h1, _⟩, h3⟩, h4⟩, h5⟩, h6⟩ := h
  exact ⟨h1, h3, h4, h5, h6⟩

/-- A spec-side next occurrence is a valid calendar date. -/
theorem specNextOccurrence_valid (today : Date) (b : String) (occ : Date)
    (h : specNextOccurrence today b = some occ) : dateValid occ = true := by
  cases hsp : strptimeDMY b with
  | none => simp only [specNextOccurrence, hsp] at h; cases h
  | some bd =>
    simp only [specNextOccurrence, hsp] at h
    by_cases h1 : dateValid ⟨today.year, bd.month, bd.day⟩ = true
    · rw [if_pos h1] at h
      by_cases hc : toordinal ⟨today.year, bd.month, bd.day⟩ < toordinal today
      · rw [if_pos hc] at h
        by_cases h2 : dateValid ⟨today.year + 1, bd.month, bd.day⟩ = true
        · rw [if_pos h2] at h; cases h; exact h2
        · rw [if_neg h2] at h; cases h
      · rw [if_neg hc] at h; cases h; exact h1
    · rw [if_neg h1] at h; cases h

/-- The window test either reports the weekend-adjusted occurrence (inside
the window) or nothing (outside), whenever it does not raise. -/
theorem upcomingWindow_spec (today : Date) (nm : String) (bty : Date)
    (x : Option UpEntry) (h : upcomingWindow today nm bty = .ok x) :
    (inWindow today bty = true ∧
      x = some ⟨nm, date_to_string (adjust_for_weekend bty)⟩) ∨
    (inWindow today bty = false ∧ x = none) := by
  unfold upcomingWindow at h
  by_cases hw : 0 ≤ (toordinal bty : Int) - (toordinal today : Int) ∧
      (toordinal bty : Int) - (toordinal today : Int) ≤ 7
  · rw [if_pos hw] at h
    by_cases hv : dateValid (adjust_for_weekend bty) = true
    · rw [if_pos hv] at h
      cases h
      exact Or.inl ⟨by simp only [inWindow, Bool.and_eq_true, decide_eq_true_eq]; omega,
        rfl⟩
    · rw [if_neg hv] at h; cases h
  · rw [if_neg hw] at h
    cases h
    refine Or.inr ⟨?_, rfl⟩
    have hn : ¬(toordinal today ≤ toordinal bty ∧
        toordinal bty ≤ toordinal today + 7) := by omega
    apply Bool.eq_false_iff.mpr
    simpa [inWindow, Bool.and_eq_true, decide_eq_true_eq] using hn

/-- A non-raising loop-body step agrees with the spec-side next occurrence
and window. -/
theorem upcomingItem_spec (today : Date) (nm bstr : String) (x : Option UpEntry)
    (h : upcomingItem today nm bstr = .ok x) :
    ∃ occ, specNextOccurrence today bstr = some occ ∧
      ((inWindow today occ = true ∧
          x = some ⟨nm, date_to_string (adjust_for_weekend occ)⟩) ∨
       (inWindow today occ = false ∧ x = none)) := by
  cases hsp : strptimeDMY bstr with
  | none => simp only [upcomingItem, hsp] at h; cases h
  | some bd =>
    simp only [upcomingItem, hsp] at h
    by_cases h1 : dateValid ⟨today.year, bd.month, bd.day⟩ = true
    · rw [if_pos h1] at h
      by_cases hc : toordinal ⟨today.year, bd.month, bd.day⟩ < toordinal today
      · rw [if_pos hc] at h
        by_cases h2 : dateValid ⟨today.year + 1, bd.month, bd.day⟩ = true
        · rw [if_pos h2] at h
          refine ⟨⟨today.year + 1, bd.month, bd.day⟩, ?_,
            upcomingWindow_spec today nm _ x h⟩
          simp [specNextOccurrence, hsp, h1, hc, h2]
        · rw [if_neg h2] at h; cases h
      · rw [if_neg hc] at h
        refine ⟨⟨today.year, bd.month, bd.day⟩, ?_,
          upcomingWindow_spec today nm _ x h⟩
        simp [specNextOccurrence, hsp, h1, hc]
    · rw [if_neg h1] at h; cases h

/-- The report-building function one entry contributes, spec side. -/
def specEntry (today : Date) (e : String × Record) : Option UpEntry :=
  match e.2.birthday with
  | none => none
  | some b =>
    match specNextOccurrence today b with
    | none => none
    | some occ =>
      if inWindow today occ = true then
        some ⟨e.1, date_to_string (adjust_for_weekend occ)⟩
      else none

/-- A non-raising `get_upcoming_birthdays` returns exactly the spec-side
entries, in directory order. -/
theorem upcoming_ok_eq (book : Book) (today : Date) (l : List UpEntry)
    (h : get_upcoming_birthdays book today = .ok l) :
    l = List.filterMap (specEntry today) book := by
  induction book generalizing l with
  | nil =>
    cases h
    rfl
  | cons e t ih =>
    rcases e with ⟨nm, r⟩
    cases hb : r.birthday with
    | none =>
      simp only [get_upcoming_birthdays, hb] at h
      simp only [List.filterMap_cons, specEntry, hb]
      exact ih l h
    | some b =>
      simp only [get_upcoming_birthdays, hb] at h
      cases hu : upcomingItem today nm b with
      | error e0 => rw [hu] at h; cases h
      | ok x =>
        rw [hu] at h
        obtain ⟨occ, hso, hcase⟩ := upcomingItem_spec today nm b x hu
        rcases hcase with ⟨hw, rfl⟩ | ⟨hw, rfl⟩
        · cases ht : get_upcoming_birthdays t today with
          | error e1 => rw [ht] at h; cases h
          | ok l0 =>
            rw [ht] at h
            cases h
            simp only [List.filterMap_cons, specEntry, hb, hso, hw, if_true]
            rw [ih l0 ht]
        · simp only [List.filterMap_cons, specEntry, hb, hso, hw, Bool.false_eq_true,
            if_false]
          exact ih l h

/-- Claim C3: a non-raising `get_upcoming_birthdays` reports, in directory
iteration order, exactly the records with a set birthday whose spec-side
next occurrence (this year's occurrence, or next year's when this year's is
strictly before today by calendar date) lies in the inclusive window
[today, today + 7 days]; in particular the result is empty when no record
qualifies. -/
theorem upcoming_birthdays_window_order (book : Book) (today : Date)
    (l : List UpEntry) (h : get_upcoming_birthdays book today = .ok l) :
    List.map UpEntry.name l =
      List.map Prod.fst (List.filter (fun e => qualifies today e) book) := by
  rw [upcoming_ok_eq book today l h]
  clear h
  induction book with
  | nil => rfl
  | cons e t ih =>
    rcases e with ⟨nm, r⟩
    cases hb : r.birthday with
    | none => simp [List.filterMap_cons, List.filter_cons, specEntry, qualifies, hb, ih]
    | some b =>
      cases hso : specNextOccurrence today b with
      | none =>
        simp [List.filterMap_cons, List.filter_cons, specEntry, qualifies, hb, hso, ih]
      | some occ =>
        by_cases hw : inWindow today occ = true
        · simp [List.filterMap_cons, List.filter_cons, specEntry, qualifies, hb, hso,
            hw, ih]
        · simp [List.filterMap_cons, List.filter_cons, specEntry, qualifies, hb, hso,
            hw, ih]

/-- Witness for C3: today 2024-06-10; a birthday 5 days out is reported and
one 10 days out is not. -/
theorem upcoming_birthdays_window_order_witness :
    List.map UpEntry.name
        [({ name := "Alice", congratulation_date := "17.06.2024" } : UpEntry)] =
      List.map Prod.fst (List.filter (fun e => qualifies ⟨2024, 6, 10⟩ e)
        ([("Alice", ⟨"Alice", [], some "15.06.1990"⟩),
          ("Bob", ⟨"Bob", [], some "20.06.1990"⟩)] : Book)) :=
  upcoming_birthdays_window_order
    [("Alice", ⟨"Alice", [], some "15.06.1990"⟩),
     ("Bob", ⟨"Bob", [], some "20.06.1990"⟩)] ⟨2024, 6, 10⟩
    [{ name := "Alice", congratulation_date := "17.06.2024" }] (by rfl)

/-- Claim C4: every reported congratulation date is the occurrence itself on
Monday–Friday, and otherwise the unique Monday strictly after the occurrence
and at most 7 days later, formatted DD.MM.YYYY. -/
theorem congratulation_weekend_shift (book : Book) (today : Date)
    (l : List UpEntry) (h : get_upcoming_birthdays book today = .ok l) :
    ∀ e ∈ l, ∃ nm r b occ, (nm, r) ∈ book ∧ r.birthday = some b ∧
      e.name = nm ∧ specNextOccurrence today b = some occ ∧
      ((weekday occ < 5 ∧ e.congratulation_date = date_to_string occ) ∨
       (5 ≤ weekday occ ∧ ∃ m, weekday m = 0 ∧
          toordinal occ < toordinal m ∧ toordinal m ≤ toordinal occ + 7 ∧
          e.congratulation_date = date_to_string m)) := by
  rw [upcoming_ok_eq book today l h]
  intro e he
  rcases List.mem_filterMap.mp he with ⟨⟨nm, r⟩, hmem, hg⟩
  cases hb : r.birthday with
  | none => simp only [specEntry, hb] at hg; cases hg
  | some b =>
    simp only [specEntry, hb] at hg
    cases hso : specNextOccurrence today b with
    | none => simp only [hso] at hg; cases hg
    | some occ =>
      simp only [hso] at hg
      by_cases hw : inWindow today occ = true
      · rw [if_pos hw] at hg
        cases hg
        refine ⟨nm, r, b, occ, hmem, hb, rfl, hso, ?_⟩
        by_cases h5 : 5 ≤ weekday occ
        · right
          have hok := dateValid_ok occ (specNextOccurrence_valid today b occ hso)
          obtain ⟨hmon, hlt, hle⟩ := adjust_weekend_next_monday occ hok h5
          exact ⟨h5, adjust_for_weekend occ, hmon, hlt, hle, rfl⟩
        · left
          refine ⟨by omega, ?_⟩
          unfold adjust_for_weekend
          rw [if_neg h5]
      · rw [if_neg hw] at hg; cases hg

/-- Witness for C4: today 2024-06-10 (Monday), birthday "15.06.1990" —
15.06.2024 is a Saturday, so the reported date is Monday 17.06.2024. -/
theorem congratulation_weekend_shift_witness :
    ∃ nm r b occ,
      (nm, r) ∈ ([("Alice", ⟨"Alice", [], some "15.06.1990"⟩)] : Book) ∧
      r.birthday = some b ∧
      ({ name := "Alice", congratulation_date := "17.06.2024" } : UpEntry).name = nm ∧
      specNextOccurrence ⟨2024, 6, 10⟩ b = some occ ∧
      ((weekday occ < 5 ∧
          ({ name := "Alice", congratulation_date := "17.06.2024" } : UpEntry).congratulation_date
            = date_to_string occ) ∨
       (5 ≤ weekday occ ∧ ∃ m, weekday m = 0 ∧
          toordinal occ < toordinal m ∧ toordinal m ≤ toordinal occ + 7 ∧
          ({ name := "Alice", congratulation_date := "17.06.2024" } : UpEntry).congratulation_date
            = date_to_string m)) :=
  congratulation_weekend_shift
    [("Alice", ⟨"Alice", [], some "15.06.1990"⟩)] ⟨2024, 6, 10⟩
    [{ name := "Alice", congratulation_date := "17.06.2024" }] (by rfl)
    { name := "Alice", congratulation_date := "17.06.2024" } (by simp)

/-! ### The `strptime` format: splitting on dots -/

/-- Splitting never yields an empty part list. -/
theorem splitDots_ne_nil (l : List Char) : splitDots l ≠ [] := by
  induction l with
  | nil => simp [splitDots]
  | cons c cs ih =>
    by_cases hc : c = '.'
    · simp [splitDots, hc]
    · simp only [splitDots, if_neg hc]
      cases h : splitDots cs with
      | nil => simp
      | cons a t => simp

/-- A one-part split means the string had no separator. -/
theorem splitDots_eq_one (l : List Char) (a : List Char)
    (h : splitDots l = [a]) : l = a := by
  induction l generalizing a with
  | nil =>
    simp only [splitDots] at h
    cases h
    rfl
  | cons c cs ih =>
    by_cases hc : c = '.'
    · rw [splitDots, if_pos hc] at h
      injection h with h1 h2
      exact absurd h2 (splitDots_ne_nil cs)
    · rw [splitDots, if_neg hc] at h
      cases hs : splitDots cs with
      | nil => exact absurd hs (splitDots_ne_nil cs)
      | cons p t =>
        rw [hs] at h
        injection h with h1 h2
        subst h2
        rw [← h1, ih p hs]

/-- A two-part split recovers the string around one separator. -/
theorem splitDots_eq_two (l : List Char) (a b : List Char)
    (h : splitDots l = [a, b]) : l = a ++ '.' :: b := by
  induction l generalizing a with
  | nil =>
    simp only [splitDots] at h
    injection h with h1 h2
    injection h2
  | cons c cs ih =>
    by_cases hc : c = '.'
    · rw [splitDots, if_pos hc] at h
      injection h with h1 h2
      subst h1
      rw [hc, splitDots_eq_one cs b h2]
      rfl
    · rw [splitDots, if_neg hc] at h
      cases hs : splitDots cs with
      | nil => exact absurd hs (splitDots_ne_nil cs)
      | cons p t =>
        rw [hs] at h
        injection h with h1 h2
        subst h2
        rw [← h1, List.cons_append, ih p hs]

/-- A three-part split recovers the string around two separators. -/
theorem splitDots_eq_three (l : List Char) (a b c : List Char)
    (h : splitDots l = [a, b, c]) : l = a ++ '.' :: (b ++ '.' :: c) := by
  induction l generalizing a with
  | nil =>
    simp only [splitDots] at h
    injection h with h1 h2
    injection h2
  | cons ch cs ih =>
    by_cases hc : ch = '.'
    · rw [splitDots, if_pos hc] at h
      injection h with h1 h2
      subst h1
      rw [hc, splitDots_eq_two cs b c h2]
      rfl
    · rw [splitDots, if_neg hc] at h
      cases hs : splitDots cs with
      | nil => exact absurd hs (splitDots_ne_nil cs)
      | cons p t =>
        rw [hs] at h
        injection h with h1 h2
        subst h2
        rw [← h1, List.cons_append, ih p hs]

/-- A dot-free string splits into itself. -/
theorem splitDots_no_dot (l : List Char) (h : '.' ∉ l) : splitDots l = [l] := by
  induction l with
  | nil => rfl
  | cons c cs ih =>
    have hc : ¬ c = '.' := fun e => h (e ▸ List.mem_cons_self c cs)
    have hcs : '.' ∉ cs := fun hm => h (List.mem_cons_of_mem c hm)
    rw [splitDots, if_neg hc, ih hcs]

/-- Splitting walks past a dot-free prefix and its separator. -/
theorem splitDots_append (a rest : List Char) (ha : '.' ∉ a) :
    splitDots (a ++ '.' :: rest) = a :: splitDots rest := by
  induction a with
  | nil => simp [splitDots]
  | cons c cs ih =>
    have hc : ¬ c = '.' := fun e => ha (e ▸ List.mem_cons_self c cs)
    have hcs : '.' ∉ cs := fun hm => ha (List.mem_cons_of_mem c hm)
    rw [List.cons_append, splitDots, if_neg hc, ih hcs]

/-- `Birthday` keeps the original string exactly when `strptime` succeeds. -/
theorem mkBirthday_ok_iff (s : String) :
    mkBirthday s = .ok s ↔ strptimeDMY s ≠ none := by
  unfold mkBirthday
  cases strptimeDMY s <;> simp

/-- Claim C1 (counterexample): the code accepts "1.01.2024", a string that
does not match the zero-padded DD.MM.YYYY format, because `strptime`'s `%d`
also admits single-digit days. -/
theorem birthday_strict_format_counterexample :
    mkBirthday "1.01.2024" = .ok "1.01.2024" ∧ strictDMY "1.01.2024" = false :=
  ⟨by rfl, by rfl⟩

/-- Claim C1 (amended): Birthday construction succeeds — storing the
original string — exactly for strings of the form day.month.year with a 1-
or 2-digit day, a 1- or 2-digit month (zero-padding optional, as accepted by
`strptime`'s `%d` and `%m`), an exactly 4-digit year, denoting a real
calendar date of years 1–9999; every other string fails with
`DateValidationError`. -/
theorem birthday_validation_amended (s : String) :
    (mkBirthday s = .ok s ↔
      ∃ ds ms ys : List Char,
        s.data = ds ++ '.' :: (ms ++ '.' :: ys) ∧
        (∀ c ∈ ds, c.isDigit = true) ∧ (ds.length = 1 ∨ ds.length = 2) ∧
        1 ≤ digitsVal ds ∧ digitsVal ds ≤ 31 ∧
        (∀ c ∈ ms, c.isDigit = true) ∧ (ms.length = 1 ∨ ms.length = 2) ∧
        1 ≤ digitsVal ms ∧ digitsVal ms ≤ 12 ∧
        (∀ c ∈ ys, c.isDigit = true) ∧ ys.length = 4 ∧
        1 ≤ digitsVal ys ∧ digitsVal ys ≤ 9999 ∧
        digitsVal ds ≤ daysInMonth (digitsVal ys) (digitsVal ms)) ∧
    (∀ t, mkBirthday s = .ok t → t = s) ∧
    (mkBirthday s ≠ .ok s → mkBirthday s = .error Err.dateValidation) := by
  refine ⟨?_, ?_, ?_⟩
  · rw [mkBirthday_ok_iff]
    constructor
    · intro h
      rcases hsp : splitDots s.data with _ | ⟨ds, _ | ⟨ms, _ | ⟨ys, _ | ⟨p4, rest⟩⟩⟩⟩
      · exact absurd (by simp [strptimeDMY, hsp]) h
      · exact absurd (by simp [strptimeDMY, hsp]) h
      · exact absurd (by simp [strptimeDMY, hsp]) h
      · by_cases hf : (dayField ds && monthField ms && yearField ys) = true
        · by_cases hv : dateValid ⟨digitsVal ys, digitsVal ms, digitsVal ds⟩ = true
          · have hf' := hf
            have hv' := hv
            simp only [dayField, monthField, yearField, Bool.and_eq_true,
              Bool.or_eq_true, beq_iff_eq, decide_eq_true_eq,
              List.all_eq_true] at hf'
            simp only [dateValid, Bool.and_eq_true, decide_eq_true_eq] at hv'
            exact ⟨ds, ms, ys, splitDots_eq_three s.data ds ms ys hsp,
              hf'.1.1.1.1.1, hf'.1.1.1.1.2, hf'.1.1.1.2, hf'.1.1.2,
              hf'.1.2.1.1.1, hf'.1.2.1.1.2, hf'.1.2.1.2, hf'.1.2.2,
              hf'.2.1, hf'.2.2,
              hv'.1.1.1.1.1, hv'.1.1.1.1.2, hv'.2⟩
          · exact absurd (by simp [strptimeDMY, hsp, hf, hv]) h
        · exact absurd (by simp [strptimeDMY, hsp, hf]) h
      · exact absurd (by simp [strptimeDMY, hsp]) h
    · rintro ⟨ds, ms, ys, hdec, hd1, hd2, hd3, hd4, hm1, hm2, hm3, hm4,
        hy1, hy2, hy3, hy4, hday⟩
      have hnds : '.' ∉ ds := fun hin => by simpa using hd1 _ hin
      have hnms : '.' ∉ ms := fun hin => by simpa using hm1 _ hin
      have hnys : '.' ∉ ys := fun hin => by simpa using hy1 _ hin
      have hsp : splitDots s.data = [ds, ms, ys] := by
        rw [hdec, splitDots_append ds _ hnds, splitDots_append ms _ hnms,
          splitDots_no_dot ys hnys]
      have hf : (dayField ds && monthField ms && yearField ys) = true := by
        simp only [dayField, monthField, yearField, Bool.and_eq_true,
          Bool.or_eq_true, beq_iff_eq, decide_eq_true_eq, List.all_eq_true]
        exact ⟨⟨⟨⟨⟨hd1, hd2⟩, hd3⟩, hd4⟩, ⟨⟨⟨hm1, hm2⟩, hm3⟩, hm4⟩⟩, hy1, hy2⟩
      have hv : dateValid ⟨digitsVal ys, digitsVal ms, digitsVal ds⟩ = true := by
        simp only [dateValid, Bool.and_eq_true, decide_eq_true_eq]
        exact ⟨⟨⟨⟨⟨hy3, hy4⟩, hm3⟩, hm4⟩, hd3⟩, hday⟩
      simp [strptimeDMY, hsp, hf, hv]
  · intro t ht
    unfold mkBirthday at ht
    cases hsp : strptimeDMY s with
    | none => rw [hsp] at ht; cases ht
    | some d => rw [hsp] at ht; cases ht; rfl
  · intro hne
    unfold mkBirthday at *
    cases hsp : strptimeDMY s with
    | none => rfl
    | some d => rw [hsp] at hne; exact absurd rfl hne

end ContactBook
